import Mathlib

/-!
Verification of the result-normalization and aggregation routine of
`quantum_sort_ibm.py` (functions `_to_bits`, `_bitarray_to_strings`, and the
counting/aggregation logic of `run`), embedded shallowly in Lean 4.

Strings are modelled as Lean `String`s built from explicit `List Char`
digit lists; Python `Counter`s and dicts are modelled as insertion-ordered
association lists with the unique-key invariant maintained structurally.
-/

namespace QuantumSort

/-- Decimal digit characters of `n` (most significant first), computed with
fuel so the definition is structural; fuel `n` always suffices since the
recursive call is on `n / 10`.  Empty for `n = 0` (handled by `decChars`). -/
def decDigitsAux : Nat → Nat → List Char
  | 0, _ => []
  | _ + 1, 0 => []
  | fuel + 1, n + 1 =>
      decDigitsAux fuel ((n + 1) / 10) ++ [Char.ofNat (48 + (n + 1) % 10)]

/-- The characters of Python `str(int(b))` for a non-negative integer `b`. -/
def decChars (n : Nat) : List Char :=
  if n = 0 then ['0'] else decDigitsAux n n

/-- Python `''.join(str(int(b)) for b in sample)` from `_bitarray_to_strings`
and `_to_bits`: concatenate the decimal forms of the entries. -/
def joinDec (l : List Nat) : String :=
  String.mk (l.map decChars).flatten

/-- Binary digit characters of `n` (most significant first), with fuel;
empty for `n = 0` (handled by `binChars`). -/
def binDigitsAux : Nat → Nat → List Char
  | 0, _ => []
  | _ + 1, 0 => []
  | fuel + 1, n + 1 =>
      binDigitsAux fuel ((n + 1) / 2) ++
        [if (n + 1) % 2 = 1 then '1' else '0']

/-- Characters of Python `format(n, "b")`: minimal binary form, `"0"` for 0. -/
def binChars (n : Nat) : List Char :=
  if n = 0 then ['0'] else binDigitsAux n n

/-- Characters of Python `format(n, f"0{width}b")`: the binary form of `n`
left-padded with `'0'` up to `width`. -/
def pyBinChars (width n : Nat) : List Char :=
  List.replicate (width - (binChars n).length) '0' ++ binChars n

/-- Python `format(n, f"0{width}b")` as a string. -/
def pyBinFormat (width n : Nat) : String :=
  String.mk (pyBinChars width n)

/-- A quasi-distribution key as seen by `_to_bits`: a `str`, an object with a
`.to01()` accessor (carrying the string that accessor returns), an iterable
of integers, or any other object (carrying its `str()` form). -/
inductive Key where
  | str : String → Key
  | to01 : String → Key
  | iter : List Nat → Key
  | other : String → Key
deriving DecidableEq

/-- `_to_bits` from `quantum_sort_ibm.py`: strings pass through; `.to01()`
is used when available; an iterable of ints is joined digit-wise; anything
else falls back to the raw `str()` form.  Total: no branch raises. -/
def to_bits : Key → String
  | Key.str s => s
  | Key.to01 s => s
  | Key.iter l => joinDec l
  | Key.other s => s

/-- One row of the converted `BitArray` list: a Python list/tuple of
non-negative integers, or a bare non-negative integer. -/
inductive Row where
  | seq : List Nat → Row
  | int : Nat → Row
deriving DecidableEq

/-- The per-row body of the loop in `_bitarray_to_strings`: a sequence of
length `width` is joined digit-wise; a one-element sequence and a bare int
are rendered via `format(·, f"0{width}b")`; anything else raises. -/
def row_to_string (width : Nat) : Row → Except String String
  | Row.seq l =>
      if l.length = width then Except.ok (joinDec l)
      else if l.length = 1 then Except.ok (pyBinFormat width (l.headD 0))
      else Except.error "Unexpected BitArray row"
  | Row.int n => Except.ok (pyBinFormat width n)

/-- `_bitarray_to_strings` from `quantum_sort_ibm.py`, after the rows have
been extracted by `.tolist()`: convert each row in order, propagating the
`RuntimeError` of the first unrecognized row. -/
def bitarray_to_strings (width : Nat) : List Row → Except String (List String)
  | [] => Except.ok []
  | r :: rest =>
      match row_to_string width r with
      | Except.error e => Except.error e
      | Except.ok s =>
          match bitarray_to_strings width rest with
          | Except.error e => Except.error e
          | Except.ok ss => Except.ok (s :: ss)

/-- Add `v` to the entry of key `k` of an insertion-ordered mapping with
unique keys, appending a fresh entry when `k` is absent: the effect of
`Counter` addition / `Counter.update` on one key. -/
def addVal : List (String × Int) → String → Int → List (String × Int)
  | [], k, v => [(k, v)]
  | p :: rest, k, v =>
      if p.1 = k then (p.1, p.2 + v) :: rest else p :: addVal rest k v

/-- Python `Counter(strings)`: tally each string in order. -/
def counter (l : List String) : List (String × Int) :=
  l.foldl (fun m s => addVal m s 1) []

/-- Python `dict[k] = v` on an insertion-ordered mapping with unique keys:
overwrite the entry of `k` when present, else append. -/
def dictInsert : List (String × Int) → String → Int → List (String × Int)
  | [], k, v => [(k, v)]
  | p :: rest, k, v =>
      if p.1 = k then (k, v) :: rest else p :: dictInsert rest k v

/-- Python 3 `round` (banker's rounding, half to even) of the exact
fraction `num / den` with `den > 0`.  The floor is `Int.fdiv`; the
fractional part `r / den` is compared with `1 / 2` by cross-multiplication
(`2 * r` against `den`) so that the kernel can evaluate the definition. -/
def roundHalfEven (num den : ℤ) : ℤ :=
  let f := Int.fdiv num den
  let r2 := 2 * (num - f * den)
  if r2 < den then f
  else if den < r2 then f + 1
  else if f % 2 = 0 then f else f + 1

/-- Python `int(round(p * shots))` on an exact rational probability `p`:
the product `p * shots` is the (possibly unreduced) fraction
`(p.num * shots) / p.den`, rounded half to even. -/
def pyRoundMulShots (p : ℚ) (shots : Nat) : ℤ :=
  roundHalfEven (p.num * shots) p.den

/-- The quasi-distribution branch of `run`:
`{_to_bits(k): int(round(p * shots)) for k, p in zip(q.keys(), q.probabilities())}`,
with the key/probability pairs given as the zipped list. -/
def quasi_counts (shots : Nat) (pairs : List (Key × ℚ)) : List (String × Int) :=
  pairs.foldl (fun m kp => dictInsert m (to_bits kp.1) (pyRoundMulShots kp.2 shots)) []

/-- Python `aggregated.update(counts)`: add every entry of `counts`, in
order, into the aggregate. -/
def counter_update (agg counts : List (String × Int)) : List (String × Int) :=
  counts.foldl (fun m p => addVal m p.1 p.2) agg

/-- The aggregation loop of `run`: starting from the empty `Counter`, fold
in each trial's counts mapping with `aggregated.update(counts)`. -/
def aggregate_run (trialCounts : List (List (String × Int))) : List (String × Int) :=
  trialCounts.foldl counter_update []

/-- Sum of the values of a counts mapping. -/
def sumVals (m : List (String × Int)) : Int :=
  (m.map Prod.snd).sum

/-- Modelled from the spec: "decoding it back" — interpret a string of
binary digit characters as an unsigned integer, most significant bit first
(Python `int(s, 2)`); no decoder exists in the source. -/
def decodeBin (s : String) : Nat :=
  s.data.foldl (fun acc c => 2 * acc + (if c = '1' then 1 else 0)) 0

/-- A raw bit-array row that is valid per the spec's data model for width
`W`: a row of `W` many 0/1 values, a single-element row holding an unsigned
integer in `[0, 2^W)`, or a bare unsigned integer in `[0, 2^W)`. -/
def ValidRow (W : Nat) : Row → Prop
  | Row.seq l =>
      (l.length = W ∧ ∀ b ∈ l, b ≤ 1) ∨ (l.length = 1 ∧ l.headD 0 < 2 ^ W)
  | Row.int n => n < 2 ^ W

theorem string_mk_length (l : List Char) : (String.mk l).length = l.length := rfl

theorem decChars_length_of_le_one {b : Nat} (hb : b ≤ 1) : (decChars b).length = 1 := by
  interval_cases b <;> rfl

theorem joinDec_length (l : List Nat) (h : ∀ b ∈ l, b ≤ 1) :
    (joinDec l).length = l.length := by
  rw [joinDec, string_mk_length]
  induction l with
  | nil => rfl
  | cons b t ih =>
      simp only [List.map_cons, List.flatten_cons, List.length_append, List.length_cons]
      rw [decChars_length_of_le_one (h b (by simp)), ih (fun x hx => h x (by simp [hx]))]
      omega

theorem binDigitsAux_length_le (fuel : Nat) :
    ∀ n W, n ≤ fuel → n < 2 ^ W → (binDigitsAux fuel n).length ≤ W := by
  induction fuel with
  | zero => intro n W _ _; simp [binDigitsAux]
  | succ fuel ih =>
      intro n W hfuel hlt
      match n with
      | 0 => simp [binDigitsAux]
      | m + 1 =>
          have hW : 0 < W := by
            rcases Nat.eq_zero_or_pos W with h0 | h0
            · subst h0; simp at hlt
            · exact h0
          simp only [binDigitsAux, List.length_append, List.length_cons,
            List.length_nil]
          have hrec : (binDigitsAux fuel ((m + 1) / 2)).length ≤ W - 1 := by
            apply ih
            · omega
            · have h2 : (m + 1) / 2 < 2 ^ (W - 1) := by
                rw [Nat.div_lt_iff_lt_mul (by norm_num : 0 < 2)]
                have : 2 ^ (W - 1) * 2 = 2 ^ W := by
                  rw [← pow_succ]
                  congr 1
                  omega
                omega
              exact h2
          omega

theorem binDigitsAux_length_gt (fuel : Nat) :
    ∀ n W, n ≤ fuel → 2 ^ W ≤ n → W < (binDigitsAux fuel n).length := by
  induction fuel with
  | zero =>
      intro n W hfuel hge
      have := Nat.one_le_two_pow (n := W)
      omega
  | succ fuel ih =>
      intro n W hfuel hge
      have hpow := Nat.one_le_two_pow (n := W)
      match n with
      | 0 => omega
      | m + 1 =>
          simp only [binDigitsAux, List.length_append, List.length_cons,
            List.length_nil]
          match W with
          | 0 => omega
          | V + 1 =>
              have hrec : V < (binDigitsAux fuel ((m + 1) / 2)).length := by
                apply ih
                · omega
                · rw [Nat.le_div_iff_mul_le (by norm_num : 0 < 2)]
                  calc 2 ^ V * 2 = 2 ^ (V + 1) := (pow_succ 2 V).symm
                    _ ≤ m + 1 := hge
              omega

theorem binChars_length_le {W n : Nat} (hW : 0 < W) (h : n < 2 ^ W) :
    (binChars n).length ≤ W := by
  rw [binChars]
  split
  · simpa using hW
  · exact binDigitsAux_length_le n n W le_rfl h

theorem binChars_length_gt {W n : Nat} (h : 2 ^ W ≤ n) :
    W < (binChars n).length := by
  have hn : n ≠ 0 := by
    have := Nat.one_le_two_pow (n := W)
    omega
  rw [binChars, if_neg hn]
  exact binDigitsAux_length_gt n n W le_rfl h

theorem pyBinChars_length_eq {W n : Nat} (hW : 0 < W) (h : n < 2 ^ W) :
    (pyBinChars W n).length = W := by
  have hle := binChars_length_le hW h
  simp only [pyBinChars, List.length_append, List.length_replicate]
  omega

theorem pyBinChars_length_gt {W n : Nat} (h : 2 ^ W ≤ n) :
    W < (pyBinChars W n).length := by
  have hgt := binChars_length_gt h
  simp only [pyBinChars, List.length_append, List.length_replicate]
  omega

theorem pyBinFormat_length_eq {W n : Nat} (hW : 0 < W) (h : n < 2 ^ W) :
    (pyBinFormat W n).length = W := by
  rw [pyBinFormat, string_mk_length]
  exact pyBinChars_length_eq hW h

theorem binDigitsAux_decode (fuel : Nat) :
    ∀ n, n ≤ fuel →
      (binDigitsAux fuel n).foldl
        (fun acc c => 2 * acc + (if c = '1' then 1 else 0)) 0 = n := by
  induction fuel with
  | zero =>
      intro n hfuel
      have : n = 0 := by omega
      subst this
      rfl
  | succ fuel ih =>
      intro n hfuel
      match n with
      | 0 => rfl
      | m + 1 =>
          have hdiv : (m + 1) / 2 ≤ fuel := by omega
          rw [binDigitsAux, List.foldl_append, ih ((m + 1) / 2) hdiv]
          by_cases hmod : (m + 1) % 2 = 1
          · rw [if_pos hmod, List.foldl_cons, List.foldl_nil]
            show 2 * ((m + 1) / 2) + 1 = m + 1
            omega
          · rw [if_neg hmod, List.foldl_cons, List.foldl_nil]
            show 2 * ((m + 1) / 2) + 0 = m + 1
            omega

theorem decode_replicate_zero_prefix (k : Nat) (l : List Char) :
    (List.replicate k '0' ++ l).foldl
        (fun acc c => 2 * acc + (if c = '1' then 1 else 0)) 0 =
      l.foldl (fun acc c => 2 * acc + (if c = '1' then 1 else 0)) 0 := by
  induction k with
  | zero => rfl
  | succ k ih =>
      rw [List.replicate_succ, List.cons_append, List.foldl_cons]
      simpa using ih

theorem decodeBin_binChars (n : Nat) :
    (binChars n).foldl (fun acc c => 2 * acc + (if c = '1' then 1 else 0)) 0 = n := by
  rw [binChars]
  split
  · next h => subst h; rfl
  · exact binDigitsAux_decode n n le_rfl

theorem row_ok_length {W : Nat} (hW : 0 < W) {r : Row} {s : String}
    (hv : ValidRow W r) (hok : row_to_string W r = Except.ok s) :
    s.length = W := by
  match r with
  | Row.int n =>
      simp only [row_to_string, Except.ok.injEq] at hok
      subst hok
      exact pyBinFormat_length_eq hW hv
  | Row.seq l =>
      simp only [row_to_string] at hok
      rcases hv with ⟨hlen, hbits⟩ | ⟨hlen1, hval⟩
      · rw [if_pos hlen, Except.ok.injEq] at hok
        subst hok
        rw [joinDec_length l hbits]
        exact hlen
      · by_cases hc : l.length = W
        · rw [if_pos hc, Except.ok.injEq] at hok
          subst hok
          have hW1 : W = 1 := by omega
          subst hW1
          rw [joinDec_length l ?_]
          · exact hc
          · intro b hb
            match l, hlen1 with
            | [x], _ =>
                simp only [List.mem_singleton] at hb
                subst hb
                have hx : b < 2 := by simpa using hval
                omega
        · rw [if_neg hc, if_pos hlen1, Except.ok.injEq] at hok
          subst hok
          exact pyBinFormat_length_eq hW hval

theorem bitarray_ok_length {W : Nat} {rows : List Row} {strs : List String}
    (h : bitarray_to_strings W rows = Except.ok strs) :
    strs.length = rows.length := by
  induction rows generalizing strs with
  | nil =>
      simp only [bitarray_to_strings, Except.ok.injEq] at h
      subst h
      rfl
  | cons r t ih =>
      rw [bitarray_to_strings] at h
      cases hr : row_to_string W r with
      | error e => rw [hr] at h; exact absurd h (by simp)
      | ok s =>
          rw [hr] at h
          cases ht : bitarray_to_strings W t with
          | error e => rw [ht] at h; exact absurd h (by simp)
          | ok ss =>
              rw [ht, Except.ok.injEq] at h
              subst h
              simp [ih ht]

theorem bitarray_ok_mem_strings {W : Nat} {rows : List Row} {strs : List String}
    (h : bitarray_to_strings W rows = Except.ok strs) :
    ∀ s ∈ strs, ∃ r ∈ rows, row_to_string W r = Except.ok s := by
  induction rows generalizing strs with
  | nil =>
      simp only [bitarray_to_strings, Except.ok.injEq] at h
      subst h
      simp
  | cons r t ih =>
      rw [bitarray_to_strings] at h
      cases hr : row_to_string W r with
      | error e => rw [hr] at h; exact absurd h (by simp)
      | ok s =>
          rw [hr] at h
          cases ht : bitarray_to_strings W t with
          | error e => rw [ht] at h; exact absurd h (by simp)
          | ok ss =>
              rw [ht, Except.ok.injEq] at h
              subst h
              intro x hx
              rcases List.mem_cons.mp hx with hx | hx
              · exact ⟨r, by simp, by rw [hr, hx]⟩
              · rcases ih ht x hx with ⟨r', hr', hok'⟩
                exact ⟨r', by simp [hr'], hok'⟩

theorem bitarray_ok_rows_ok {W : Nat} {rows : List Row} {strs : List String}
    (h : bitarray_to_strings W rows = Except.ok strs) :
    ∀ r ∈ rows, ∃ s, row_to_string W r = Except.ok s := by
  induction rows generalizing strs with
  | nil => simp
  | cons r t ih =>
      rw [bitarray_to_strings] at h
      cases hr : row_to_string W r with
      | error e => rw [hr] at h; exact absurd h (by simp)
      | ok s =>
          rw [hr] at h
          cases ht : bitarray_to_strings W t with
          | error e => rw [ht] at h; exact absurd h (by simp)
          | ok ss =>
              intro x hx
              rcases List.mem_cons.mp hx with hx | hx
              · exact ⟨s, by rw [hx, hr]⟩
              · exact ih ht x hx

theorem sumVals_addVal (m : List (String × Int)) (k : String) (v : Int) :
    sumVals (addVal m k v) = sumVals m + v := by
  induction m with
  | nil => simp [addVal, sumVals]
  | cons p rest ih =>
      rw [addVal]
      split
      · simp only [sumVals, List.map_cons, List.sum_cons] at *
        omega
      · simp only [sumVals, List.map_cons, List.sum_cons] at *
        omega

theorem keys_addVal (m : List (String × Int)) (k : String) (v : Int) :
    ∀ x ∈ (addVal m k v).map Prod.fst, x = k ∨ x ∈ m.map Prod.fst := by
  induction m with
  | nil => simp [addVal]
  | cons p rest ih =>
      rw [addVal]
      split
      · next hpk =>
          intro x hx
          simp only [List.map_cons, List.mem_cons] at hx ⊢
          rcases hx with hx | hx
          · exact Or.inl (hx.trans hpk)
          · exact Or.inr (Or.inr hx)
      · intro x hx
        simp only [List.map_cons, List.mem_cons] at hx ⊢
        rcases hx with hx | hx
        · exact Or.inr (Or.inl hx)
        · rcases ih x hx with h | h
          · exact Or.inl h
          · exact Or.inr (Or.inr h)

theorem counter_foldl_keys (l : List String) :
    ∀ (acc : List (String × Int)) (kv : String × Int),
      kv ∈ l.foldl (fun m s => addVal m s 1) acc →
      kv.1 ∈ acc.map Prod.fst ∨ kv.1 ∈ l := by
  induction l with
  | nil =>
      intro acc kv h
      exact Or.inl (List.mem_map.mpr ⟨kv, h, rfl⟩)
  | cons s t ih =>
      intro acc kv h
      rw [List.foldl_cons] at h
      rcases ih (addVal acc s 1) kv h with h1 | h1
      · rcases keys_addVal acc s 1 kv.1 h1 with h2 | h2
        · exact Or.inr (by simp [h2])
        · exact Or.inl h2
      · exact Or.inr (by simp [h1])

theorem counter_keys_mem {l : List String} {kv : String × Int}
    (h : kv ∈ counter l) : kv.1 ∈ l := by
  rcases counter_foldl_keys l [] kv h with h1 | h1
  · simp at h1
  · exact h1

theorem sumVals_counter_foldl (l : List String) :
    ∀ acc : List (String × Int),
      sumVals (l.foldl (fun m s => addVal m s 1) acc) = sumVals acc + l.length := by
  induction l with
  | nil => intro acc; simp
  | cons s t ih =>
      intro acc
      rw [List.foldl_cons, ih (addVal acc s 1), sumVals_addVal]
      simp only [List.length_cons]
      omega

theorem sumVals_counter (l : List String) : sumVals (counter l) = l.length := by
  have := sumVals_counter_foldl l []
  simpa [counter, sumVals] using this

theorem sumVals_counter_update (c : List (String × Int)) :
    ∀ agg, sumVals (counter_update agg c) = sumVals agg + sumVals c := by
  induction c with
  | nil => intro agg; simp [counter_update, sumVals]
  | cons p t ih =>
      intro agg
      have hfold : counter_update agg (p :: t) = counter_update (addVal agg p.1 p.2) t := by
        rw [counter_update, counter_update, List.foldl_cons]
      rw [hfold, ih (addVal agg p.1 p.2), sumVals_addVal]
      simp only [sumVals, List.map_cons, List.sum_cons]
      omega

theorem sumVals_aggregate_foldl (S : Int) (ts : List (List (String × Int))) :
    ∀ acc, (∀ c ∈ ts, sumVals c = S) →
      sumVals (ts.foldl counter_update acc) = sumVals acc + ts.length * S := by
  induction ts with
  | nil => intro acc _; simp
  | cons c t ih =>
      intro acc hS
      rw [List.foldl_cons, ih (counter_update acc c) (fun x hx => hS x (by simp [hx])),
        sumVals_counter_update, hS c (by simp)]
      simp only [List.length_cons]
      push_cast
      ring

theorem mem_dictInsert {m : List (String × Int)} {k : String} {v : Int}
    {kv : String × Int} (h : kv ∈ dictInsert m k v) : kv ∈ m ∨ kv = (k, v) := by
  induction m with
  | nil => simpa [dictInsert] using h
  | cons p rest ih =>
      rw [dictInsert] at h
      split at h
      · rcases List.mem_cons.mp h with h1 | h1
        · exact Or.inr h1
        · exact Or.inl (by simp [h1])
      · rcases List.mem_cons.mp h with h1 | h1
        · exact Or.inl (by simp [h1])
        · rcases ih h1 with h2 | h2
          · exact Or.inl (by simp [h2])
          · exact Or.inr h2

theorem quasi_counts_foldl_mem (shots : Nat) (pairs : List (Key × ℚ)) :
    ∀ (acc : List (String × Int)) (kv : String × Int),
      kv ∈ pairs.foldl
          (fun m kp => dictInsert m (to_bits kp.1) (pyRoundMulShots kp.2 shots)) acc →
      kv ∈ acc ∨ ∃ kp ∈ pairs, kv = (to_bits kp.1, pyRoundMulShots kp.2 shots) := by
  induction pairs with
  | nil => intro acc kv h; exact Or.inl h
  | cons kp t ih =>
      intro acc kv h
      rw [List.foldl_cons] at h
      rcases ih (dictInsert acc (to_bits kp.1) (pyRoundMulShots kp.2 shots)) kv h with
        h1 | h1
      · rcases mem_dictInsert h1 with h2 | h2
        · exact Or.inl h2
        · exact Or.inr ⟨kp, by simp, h2⟩
      · rcases h1 with ⟨kp', hmem, heq⟩
        exact Or.inr ⟨kp', by simp [hmem], heq⟩

theorem mem_quasi_counts {shots : Nat} {pairs : List (Key × ℚ)}
    {kv : String × Int} (h : kv ∈ quasi_counts shots pairs) :
    ∃ kp ∈ pairs, kv = (to_bits kp.1, pyRoundMulShots kp.2 shots) := by
  rcases quasi_counts_foldl_mem shots pairs [] kv h with h1 | h1
  · simp at h1
  · exact h1

theorem roundHalfEven_nonneg {num den : ℤ} (hn : 0 ≤ num) (hd : 0 < den) :
    0 ≤ roundHalfEven num den := by
  have hf : 0 ≤ Int.fdiv num den := Int.fdiv_nonneg hn (le_of_lt hd)
  rw [roundHalfEven]
  split
  · exact hf
  · split
    · omega
    · split
      · exact hf
      · omega

theorem pyRoundMulShots_nonneg {p : ℚ} (shots : Nat) (hp : 0 ≤ p) :
    0 ≤ pyRoundMulShots p shots := by
  apply roundHalfEven_nonneg
  · exact mul_nonneg (Rat.num_nonneg.mpr hp) (Int.natCast_nonneg shots)
  · exact_mod_cast p.pos

instance validRow_decidable (W : Nat) (r : Row) : Decidable (ValidRow W r) :=
  match r with
  | Row.seq l =>
      inferInstanceAs (Decidable ((l.length = W ∧ ∀ b ∈ l, b ≤ 1) ∨
        (l.length = 1 ∧ l.headD 0 < 2 ^ W)))
  | Row.int n => inferInstanceAs (Decidable (n < 2 ^ W))

/-- C1: for every valid raw input to the result normalizer — a bitstring of
length `W` (a quasi-distribution string key), a row of `W` 0/1 values, a
single-element row holding an unsigned integer in `[0, 2^W)`, or a bare
unsigned integer in `[0, 2^W)` — every bitstring key in the normalizer's
output counts mapping has length exactly `W` (`W` positive, as the spec's
data model fixes). -/
theorem normalizer_output_width (W : Nat) (hW : 0 < W) :
    (∀ s : String, s.length = W → (to_bits (Key.str s)).length = W) ∧
    ∀ (rows : List Row) (strs : List String),
      (∀ r ∈ rows, ValidRow W r) →
      bitarray_to_strings W rows = Except.ok strs →
      ∀ kv ∈ counter strs, kv.1.length = W := by
  constructor
  · intro s hs
    exact hs
  · intro rows strs hvalid hok kv hkv
    rcases bitarray_ok_mem_strings hok kv.1 (counter_keys_mem hkv) with ⟨r, hr, hrok⟩
    exact row_ok_length hW (hvalid r hr) hrok

theorem normalizer_output_width_witness :
    (to_bits (Key.str "011")).length = 3 ∧
    (("011", (2 : Int)) : String × Int).1.length = 3 :=
  ⟨(normalizer_output_width 3 (by decide)).1 "011" rfl,
    (normalizer_output_width 3 (by decide)).2
      [Row.seq [0, 1, 1], Row.int 4, Row.seq [3]] ["011", "100", "011"]
      (by decide) rfl ("011", 2) (by decide)⟩

/-- C2: after `T` trials whose counts mappings each sum to `S` (trials of
`S` shots each), the sum of the values of the aggregate mapping built by
`run`'s `aggregated.update(counts)` loop equals exactly `T * S`. -/
theorem aggregate_total (T S : Nat) (trialCounts : List (List (String × Int)))
    (hT : trialCounts.length = T)
    (hS : ∀ c ∈ trialCounts, sumVals c = (S : ℤ)) :
    sumVals (aggregate_run trialCounts) = ((T * S : Nat) : ℤ) := by
  have h := sumVals_aggregate_foldl (S : ℤ) trialCounts [] hS
  rw [aggregate_run, h, hT]
  simp only [sumVals, List.map_nil, List.sum_nil, zero_add]
  push_cast
  ring

theorem aggregate_total_witness :
    sumVals (aggregate_run [[("011", 2), ("100", 1)], [("011", 3)]])
      = ((2 * 3 : Nat) : ℤ) :=
  aggregate_total 2 3 [[("011", 2), ("100", 1)], [("011", 3)]] rfl (by decide)

/-- C3: a bit-array row that is a sequence of length neither `W` nor `1`
(and not a bare integer) makes the per-row conversion raise the
`RuntimeError` of `_bitarray_to_strings`, and the whole conversion of any
row list containing it reports an error — the sample is never silently
dropped. -/
theorem unrecognized_row_error (W : Nat) (l : List Nat)
    (h1 : l.length ≠ W) (h2 : l.length ≠ 1)
    (rows : List Row) (hmem : Row.seq l ∈ rows) :
    row_to_string W (Row.seq l) = Except.error "Unexpected BitArray row" ∧
    ∃ msg, bitarray_to_strings W rows = Except.error msg := by
  refine ⟨by rw [row_to_string, if_neg h1, if_neg h2], ?_⟩
  cases hres : bitarray_to_strings W rows with
  | error e => exact ⟨e, rfl⟩
  | ok strs =>
      exfalso
      rcases bitarray_ok_rows_ok hres (Row.seq l) hmem with ⟨s, hs⟩
      rw [row_to_string, if_neg h1, if_neg h2] at hs
      exact absurd hs (by simp)

theorem unrecognized_row_error_witness :
    row_to_string 3 (Row.seq [0, 1]) = Except.error "Unexpected BitArray row" ∧
    ∃ msg, bitarray_to_strings 3 [Row.seq [0, 1]] = Except.error msg :=
  unrecognized_row_error 3 [0, 1] (by decide) (by decide) [Row.seq [0, 1]] (by decide)

/-- C4: in the quasi-distribution branch each key's probability `p` becomes
the integer count `round(p * shots)` (half-to-even on the exact value); in
particular keys `{"011": 0.6, "100": 0.4}` with `shots = 10` yield
`{"011": 6, "100": 4}`, and every entry of the output is the rounded image
of one input key/probability pair. -/
theorem quasi_round_conversion :
    quasi_counts 10 [(Key.str "011", Rat.divInt 6 10), (Key.str "100", Rat.divInt 4 10)]
        = [("011", 6), ("100", 4)] ∧
    ∀ (shots : Nat) (pairs : List (Key × ℚ)) (kv : String × Int),
      kv ∈ quasi_counts shots pairs →
      ∃ kp ∈ pairs, kv = (to_bits kp.1, pyRoundMulShots kp.2 shots) :=
  ⟨by decide, fun _ _ _ h => mem_quasi_counts h⟩

theorem quasi_round_conversion_witness :
    ∃ kp ∈ [(Key.str "011", Rat.divInt 6 10)],
      (("011", (6 : Int)) : String × Int) = (to_bits kp.1, pyRoundMulShots kp.2 10) :=
  quasi_round_conversion.2 10 [(Key.str "011", Rat.divInt 6 10)] ("011", 6) (by decide)

/-- C5: normalizing the bit-array rows `[[0,1,1],[0,1,1],[1,0,0]]` with
`W = 3` and tallying with `Counter` yields exactly `{"011": 2, "100": 1}`. -/
theorem bitarray_counts_example :
    (bitarray_to_strings 3 [Row.seq [0, 1, 1], Row.seq [0, 1, 1], Row.seq [1, 0, 0]]).map
        counter
      = Except.ok [("011", 2), ("100", 1)] := rfl

/-- C6: whenever every row is recognized (the conversion succeeds), the sum
of the counts produced by tallying the converted strings equals the number
of input rows — each sample is counted exactly once. -/
theorem bitarray_counts_total (W : Nat) (rows : List Row) (strs : List String)
    (h : bitarray_to_strings W rows = Except.ok strs) :
    sumVals (counter strs) = (rows.length : ℤ) := by
  rw [sumVals_counter strs, bitarray_ok_length h]

theorem bitarray_counts_total_witness :
    sumVals (counter ["011", "010"]) = ((2 : Nat) : ℤ) :=
  bitarray_counts_total 3 [Row.seq [0, 1, 1], Row.int 2] ["011", "010"] rfl

/-- C7 counterexample: a quasi-distribution input with a negative
quasi-probability (legal for quasi-distributions) produces a negative
count: key `"011"` with probability `-1/10` at `shots = 10` yields `-1`. -/
theorem quasi_negative_count_cex :
    ∃ kv ∈ quasi_counts 10 [(Key.str "011", Rat.divInt (-1) 10)], kv.2 < 0 := by
  decide

/-- C7 amended: for every quasi-distribution input whose probabilities are
all non-negative, every count in the normalizer's output is non-negative. -/
theorem quasi_counts_nonneg (shots : Nat) (pairs : List (Key × ℚ))
    (hp : ∀ kp ∈ pairs, 0 ≤ kp.2) :
    ∀ kv ∈ quasi_counts shots pairs, 0 ≤ kv.2 := by
  intro kv hkv
  rcases mem_quasi_counts hkv with ⟨kp, hmem, heq⟩
  rw [heq]
  exact pyRoundMulShots_nonneg shots (hp kp hmem)

theorem quasi_counts_nonneg_witness :
    0 ≤ (("011", (6 : Int)) : String × Int).2 :=
  quasi_counts_nonneg 10 [(Key.str "011", Rat.divInt 6 10)] (by decide) ("011", 6)
    (by decide)

/-- C8: for every `n < 2^W`, rendering `n` as the zero-padded `W`-bit
binary string `format(n, f"0{W}b")` and decoding that string back as a
binary integer yields `n`. -/
theorem encode_decode_roundtrip (W n : Nat) (h : n < 2 ^ W) :
    decodeBin (pyBinFormat W n) = n := by
  have hdata : (String.mk (pyBinChars W n)).data = pyBinChars W n := rfl
  rw [decodeBin, pyBinFormat, hdata, pyBinChars, decode_replicate_zero_prefix]
  exact decodeBin_binChars n

theorem encode_decode_roundtrip_witness : decodeBin (pyBinFormat 3 5) = 5 :=
  encode_decode_roundtrip 3 5 (by decide)

/-- C9: `_to_bits` is total — every branch returns a string — and on a key
that is not a string, has no `to01` accessor and is not an iterable of 0/1
values, it falls back to the key's raw `str()` form instead of failing. -/
theorem to_bits_fallback (s : String) : to_bits (Key.other s) = s := rfl

/-- C10 counterexample: with `W = 1`, the single-element row `[2]` (whose
value `2` is `≥ 2^1`) is handled by the length-`W` branch: no error is
raised, but the result `"2"` is not strictly longer than `W` (and is not a
bitstring), refuting the claim as stated for every `W`. -/
theorem overlong_sample_cex :
    row_to_string 1 (Row.seq [2]) = Except.ok "2" ∧ ¬ 1 < ("2").length :=
  ⟨rfl, by decide⟩

/-- C10 amended: a bare-integer row with value `≥ 2^W` (any `W`), and a
single-element row with value `≥ 2^W` when `W ≥ 2` (so the single-element
branch, not the length-`W` branch, applies), raise no error and produce a
bitstring strictly longer than `W`. -/
theorem overlong_sample_ok (W n : Nat) (hn : 2 ^ W ≤ n) :
    (row_to_string W (Row.int n) = Except.ok (pyBinFormat W n) ∧
      W < (pyBinFormat W n).length) ∧
    (2 ≤ W →
      row_to_string W (Row.seq [n]) = Except.ok (pyBinFormat W n) ∧
      W < (pyBinFormat W n).length) := by
  have hlen : W < (pyBinFormat W n).length := by
    rw [pyBinFormat, string_mk_length]
    exact pyBinChars_length_gt hn
  refine ⟨⟨rfl, hlen⟩, fun hW => ⟨?_, hlen⟩⟩
  have h1 : ¬ ([n] : List Nat).length = W := by
    simp only [List.length_singleton]
    omega
  rw [row_to_string, if_neg h1, if_pos (by simp : ([n] : List Nat).length = 1)]
  rfl

theorem overlong_sample_ok_witness :
    (row_to_string 3 (Row.int 8) = Except.ok (pyBinFormat 3 8) ∧
      3 < (pyBinFormat 3 8).length) ∧
    (row_to_string 3 (Row.seq [8]) = Except.ok (pyBinFormat 3 8) ∧
      3 < (pyBinFormat 3 8).length) :=
  ⟨(overlong_sample_ok 3 8 (by decide)).1,
    (overlong_sample_ok 3 8 (by decide)).2 (by decide)⟩

end QuantumSort
